import Mathlib

/-!
Verification of the distributed batch sharding and dispatch subsystem of
`src/accelerate/data_loader.py`.

Batches are modelled as Lean lists of opaque items; a batch sampler is a list
of batches.  Python generators are modelled as functions returning the list of
yielded values; mutable loop state is threaded explicitly.  Python slices
`l[a:b]` (with `0 ≤ a ≤ b`) become `pySlice`.  The two unbounded `while`
loops of the code (`initial_data += initial_data` and the wrap-around cycling
loop of `_iter_with_no_split`) are modelled by structurally recursive
functions whose recursion depth provably covers every terminating run of the
Python loop; the code only reaches them in such terminating configurations
(see the comments at `expandData` and `cycleLoop`).
-/

namespace DataLoader

/-- Python's list slice `l[a:b]` for natural bounds `0 ≤ a ≤ b` (indices past
the end are clipped, exactly as `List.drop`/`List.take` clip). -/
def pySlice {α : Type u} (l : List α) (a b : Nat) : List α :=
  (l.drop a).take (b - a)

/-- `sub` occurs contiguously inside `l` (hence its items keep their relative
order in `l`). -/
def SliceOf {α : Type u} (l sub : List α) : Prop :=
  ∃ s t, l = s ++ sub ++ t

/-- Mutable state of the `_iter_with_no_split` generator of
`BatchSamplerShard`: the variables `initial_data`, `batch_to_yield`, and the
list of batches yielded so far. -/
@[ext] structure NSState (α : Type u) where
  initialData : List α
  batchToYield : List α
  out : List (List α)
deriving Repr

/-- One step of the `for idx, batch in enumerate(self.batch_sampler)` loop of
`BatchSamplerShard._iter_with_no_split` (data_loader.py lines 221-233):
collect `initial_data` for the first `num_processes` batches when
`drop_last` is false, remember the batch owned by this process, and yield it
once a full round ends with a batch of nominal size (or always, when the
sampler exposes no `batch_size`). -/
def nsStep {α : Type u} (P p : Nat) (bs? : Option Nat) (dropLast : Bool)
    (idx : Nat) (s : NSState α) (b : List α) : NSState α :=
  let initialData := if ¬ dropLast ∧ idx < P then s.initialData ++ b else s.initialData
  let batchToYield := if idx % P = p then b else s.batchToYield
  if idx % P = P - 1 ∧ bs?.all (fun bsv => b.length == bsv) then
    { initialData := initialData, batchToYield := [], out := s.out ++ [batchToYield] }
  else
    { initialData := initialData, batchToYield := batchToYield, out := s.out }

/-- The whole `for` loop of `_iter_with_no_split`, starting at index `idx`
in state `s`. -/
def nsRun {α : Type u} (P p : Nat) (bs? : Option Nat) (dropLast : Bool) :
    Nat → NSState α → List (List α) → NSState α
  | _, s, [] => s
  | idx, s, b :: rest => nsRun P p bs? dropLast (idx + 1) (nsStep P p bs? dropLast idx s b) rest

/-- The doubling loop `while len(initial_data) < target: initial_data +=
initial_data`.  Each pass with a nonempty list at least doubles the length,
so `fuel = target` passes always suffice (`expandData_length`); the Python
loop diverges on an empty list, but the code only runs it under the guard
`len(initial_data) > 0`. -/
def expandData {α : Type u} (fuel : Nat) (l : List α) (target : Nat) : List α :=
  match fuel with
  | 0 => l
  | f + 1 => if l.length < target then expandData f (l ++ l) target else l

/-- The steady part of the wrap-around cycling loop at the end of
`_iter_with_no_split` (lines 255-263), after its first pass: `batch` is empty
at the top of every later pass, so each pass takes the slice
`initial_data[cycle_index : cycle_index + batch_size]`, yields it when
`idx % num_processes == process_index`, and advances.  `n` is the number of
remaining passes. -/
def cycleRounds {α : Type u} (P p bs : Nat) (initExp : List α) :
    Nat → Nat → Nat → List (List α)
  | 0, _, _ => []
  | n + 1, c, idx =>
    let b := pySlice initExp c (c + bs)
    let rest := cycleRounds P p bs initExp n (c + bs) (idx + 1)
    if idx % P = p then b :: rest else rest

/-- The wrap-around cycling loop `while idx % num_processes != 0 or
len(batch) > 0` of `_iter_with_no_split` (lines 255-263).  The first pass may
start with a nonempty leftover `batch`; every later pass starts with an empty
one, and the loop stops at the first index divisible by `num_processes`, so
after the first pass exactly `(P - (idx + 1) % P) % P` passes remain. -/
def cycleLoop {α : Type u} (P p bs : Nat) (initExp : List α)
    (c idx : Nat) (batch : List α) : List (List α) :=
  if idx % P = 0 ∧ batch.isEmpty then []
  else
    let e := c + bs - batch.length
    let b := batch ++ pySlice initExp c e
    let rest := cycleRounds P p bs initExp ((P - (idx + 1) % P) % P) e (idx + 1)
    if idx % P = p then b :: rest else rest

/-- `BatchSamplerShard._iter_with_no_split` (lines 218-263): the list of
batches yielded to process `p` of `P` when the wrapped sampler yields `src`.
`bs?` is `self.batch_size` (`None` when the sampler has no `batch_size`
attribute).  The `even_batches` tail with `bs? = none` is unreachable: the
constructor rejects `even_batches=True` without a batch size. -/
def iterWithNoSplit {α : Type u} (P p : Nat) (bs? : Option Nat)
    (dropLast evenBatches : Bool) (src : List (List α)) : List (List α) :=
  let s := nsRun P p bs? dropLast 0 ⟨[], [], []⟩ src
  if dropLast then s.out
  else if s.initialData.isEmpty then s.out
  else if ¬ evenBatches then
    if s.batchToYield.isEmpty then s.out else s.out ++ [s.batchToYield]
  else
    match bs? with
    | none => s.out
    | some bs =>
      let out1 := if s.batchToYield.length = bs then s.out ++ [s.batchToYield] else s.out
      let initExp := expandData (P * bs) s.initialData (P * bs)
      let lastB := src.getLastD []
      if lastB.length = bs then out1 ++ cycleLoop P p bs initExp 0 src.length []
      else out1 ++ cycleLoop P p bs initExp 0 (src.length - 1) lastB

/-- `BatchSamplerShard._iter_with_split` (lines 196-216): every full-size
source batch contributes its contiguous per-process slice; a trailing short
batch is dropped, yielded unevenly, or padded with the first batch repeated,
according to `drop_last`/`even_batches`. -/
def iterWithSplit {α : Type u} (P p bs : Nat) (dropLast evenBatches : Bool)
    (src : List (List α)) : List (List α) :=
  let bl := bs / P
  let main := src.filterMap
    (fun b => if b.length = bs then some (pySlice b (bl * p) (bl * (p + 1))) else none)
  let initialData := src.headD []
  let lastB := src.getLastD []
  if dropLast then main
  else if initialData.isEmpty then main
  else if ¬ lastB.length < bs then main
  else if ¬ evenBatches then
    if bl * p < lastB.length then main ++ [pySlice lastB (bl * p) (bl * (p + 1))] else main
  else
    let initExp := expandData bs initialData bs
    main ++ [pySlice (lastB ++ initExp) (bl * p) (bl * (p + 1))]

/-- `BatchSamplerShard.__len__` (lines 175-191), with `L` the length of the
wrapped batch sampler. -/
def batchSamplerShardLen (L P p : Nat) (splitBatches dropLast evenBatches : Bool) : Nat :=
  if splitBatches then L
  else if L % P = 0 then L / P
  else if dropLast then L / P
  else if evenBatches then L / P + 1
  else if p < L % P then L / P + 1 else L / P

/-- Well-formedness of a batch sampler's output, as guaranteed by
`torch.utils.data.BatchSampler`: every batch except the last has exactly the
nominal size, and the last is nonempty and at most nominal. -/
def WFBatches {α : Type u} (bs : Nat) (src : List (List α)) : Prop :=
  (∀ b ∈ src.dropLast, b.length = bs) ∧
  ∀ b ∈ src.getLast?.toList, 1 ≤ b.length ∧ b.length ≤ bs

/-- Failure modes of `BatchSamplerShard.__init__` (lines 145-169). -/
inductive BssInitError
  /-- `batch_sampler.batch_size` is read unconditionally under `split_batches`
  and the attribute is absent. -/
  | missingBatchSizeAttr
  /-- `split_batches` with a batch size that is not a round multiple of
  `num_processes`. -/
  | splitNotDivisible
  /-- `even_batches=True` with no discoverable batch size. -/
  | evenNeedsBatchSize
deriving DecidableEq, Repr

/-- `BatchSamplerShard.__init__` (lines 145-169): the construction-time
checks.  `bs?` models `getattr(batch_sampler, "batch_size", None)`; the
`split_batches` check reads `batch_sampler.batch_size` directly, so a missing
attribute raises there too. -/
def batchSamplerShardInit (bs? : Option Nat) (P : Nat) (splitBatches evenBatches : Bool) :
    Except BssInitError Unit :=
  let splitCheck : Except BssInitError Unit :=
    if splitBatches then
      match bs? with
      | none => throw .missingBatchSizeAttr
      | some bs => if bs % P ≠ 0 then throw .splitNotDivisible else pure ()
    else pure ()
  match splitCheck with
  | .error e => .error e
  | .ok _ => if bs?.isNone ∧ evenBatches then throw .evenNeedsBatchSize else pure ()

/-- `IterableDatasetShard.__init__` (lines 299-312): rejects `split_batches`
only when `batch_size > 1` and `batch_size % num_processes != 0`. -/
def iterableDatasetShardInit (batchSize P : Nat) (splitBatches : Bool) :
    Except Unit Unit :=
  if splitBatches ∧ 1 < batchSize ∧ batchSize % P ≠ 0 then throw () else pure ()

/-- The padding loop `while len(current_batch) < real_batch_size:
current_batch += first_batch` of `IterableDatasetShard.__iter__` (lines
359-360).  Each pass appends a nonempty `first_batch`, so `fuel = target`
passes suffice on every terminating Python run. -/
def padData {α : Type u} (fuel : Nat) (cur pad : List α) (target : Nat) : List α :=
  match fuel with
  | 0 => cur
  | f + 1 => if cur.length < target then padData f (cur ++ pad) pad target else cur

/-- `IterableDatasetShard.__iter__` (lines 332-362): buffer the element
stream `ds` into real batches of size `batch_size` (`split_batches=True`) or
`batch_size * num_processes` (`split_batches=False`), yield this process's
window of each full batch, and pad a trailing short batch with copies of the
first full batch when `drop_last=False`. -/
def iterableDatasetShardIter {α : Type u} (batchSize P p : Nat) (dropLast splitBatches : Bool)
    (ds : List α) : List α :=
  let realBatchSize := if splitBatches then batchSize else batchSize * P
  let processBatchSize := if splitBatches then batchSize / P else batchSize
  let lo := p * processBatchSize
  let hi := (p + 1) * processBatchSize
  let step := fun (s : Option (List α) × List α × List α) (x : α) =>
    let cur := s.2.1 ++ [x]
    if cur.length = realBatchSize then
      let fb := match s.1 with
        | none => some cur
        | some fb => some fb
      (fb, [], s.2.2 ++ pySlice cur lo hi)
    else (s.1, cur, s.2.2)
  let fin := ds.foldl step (none, [], [])
  let cur := fin.2.1
  if ¬ dropLast ∧ ¬ cur.isEmpty then
    let fb := match fin.1 with
      | none => cur
      | some fb => fb
    let padded := padData realBatchSize cur fb realBatchSize
    fin.2.2 ++ pySlice padded lo hi
  else fin.2.2

/-- `DataLoaderStateMixin` session state after `begin()`: the
`end_of_dataloader` flag, the `remainder` statistic and whether the session
was registered with the process-wide `GradientState` registry. -/
structure LoaderSession where
  endOfDataloader : Bool
  remainder : Int
  registered : Bool
deriving DecidableEq, Repr

/-- The remainder computation inside `begin()`'s `with suppress(Exception)`
block (lines 397-400): `length % total_batch_size` where either quantity may
be unavailable (`none`, an attribute or `len` failure) and a zero batch size
raises `ZeroDivisionError`. -/
def computeRemainder (datasetLength totalBatchSize : Option Nat) : Except Unit Int :=
  match datasetLength, totalBatchSize with
  | some l, some t => if t = 0 then throw () else pure ((l : Int) % (t : Int))
  | _, _ => throw ()

/-- `DataLoaderStateMixin.begin` (lines 394-401): reset the flags, then under
`drop_last=False` try to compute the remainder with every exception
suppressed, then register the session unconditionally. -/
def beginSession (dropLast : Bool) (datasetLength totalBatchSize : Option Nat) :
    LoaderSession :=
  let afterReset : LoaderSession := { endOfDataloader := false, remainder := -1, registered := false }
  let afterSuppress :=
    if ¬ dropLast then
      match computeRemainder datasetLength totalBatchSize with
      | .ok r => { afterReset with remainder := r }
      | .error _ => afterReset
    else afterReset
  { afterSuppress with registered := true }

/-- The relevant counters of the base loader's `state_dict` used by
`DataLoaderAdapter.adjust_state_dict_for_prefetch` (lines 463-484):
`_sampler_iter_yielded`, `_num_yielded`, and `_index_sampler_state`, which is
either `None`, a mapping without `samples_yielded`, or a mapping with it. -/
structure DLStateDict where
  samplerIterYielded : Int
  numYielded : Int
  indexSamplerState : Option (Option Int)
deriving DecidableEq, Repr

/-- `DataLoaderAdapter.adjust_state_dict_for_prefetch` (lines 463-484): in a
distributed run, subtract `num_processes - 1` from each positive iteration
counter and `batch_size * (num_processes - 1)` from a positive
`samples_yielded`. -/
def adjustStateDictForPrefetch (distributed : Bool) (P : Nat) (batchSize : Int)
    (sd : DLStateDict) : DLStateDict :=
  if distributed then
    let factor : Int := (P : Int) - 1
    { samplerIterYielded :=
        if 0 < sd.samplerIterYielded then sd.samplerIterYielded - factor
        else sd.samplerIterYielded,
      numYielded :=
        if 0 < sd.numYielded then sd.numYielded - factor else sd.numYielded,
      indexSamplerState :=
        match sd.indexSamplerState with
        | some (some v) =>
          if 0 < v then some (some (v - batchSize * factor)) else some (some v)
        | other => other }
  else sd

/-- A checkpoint produced by `DataLoaderAdapter._update_state_dict`: the
adjusted state dict plus the `_iterator_finished` tag. -/
structure LoaderCheckpoint where
  dlState : DLStateDict
  iteratorFinished : Bool
deriving DecidableEq, Repr

/-- `DataLoaderAdapter._update_state_dict` (lines 486-497): snapshot the base
loader's state dict, adjust it for prefetching, and tag it with the current
`end_of_dataloader` flag. -/
def updateStateDict (distributed : Bool) (P : Nat) (batchSize : Int)
    (endOfDataloader : Bool) (captured : DLStateDict) : LoaderCheckpoint :=
  { dlState := adjustStateDictForPrefetch distributed P batchSize captured,
    iteratorFinished := endOfDataloader }

/-- The sequence of combined batches fetched by
`DataLoaderDispatcher._fetch_batches` (lines 786-850) over a whole traversal:
with `split_batches` each base batch is one round; otherwise successive
groups of `num_processes` base batches are concatenated, and a trailing short
group becomes one extra remainder round when `drop_last=False`. -/
def dispatchRounds {α : Type u} (P : Nat) (dropLast splitBatches : Bool)
    (base : List (List α)) : List (List α) :=
  if splitBatches then base
  else
    let q := base.length / P
    let full := (List.range q).map (fun k => ((base.drop (k * P)).take P).flatten)
    let rest := base.drop (q * P)
    if ¬ dropLast ∧ ¬ rest.isEmpty then full ++ [rest.flatten] else full

/-- The slicing loop of `DataLoaderDispatcher.__iter__` (lines 868-924) on one
process: `fb` is the retained `first_batch` pool (`slice(0, num_processes)`
of the first combined batch, kept only when `drop_last=False`); the final
round is the last fetched round (the one on which `stop_iteration` becomes
true), and when its size is not divisible by `num_processes` the pool is
appended and the chunk grows by one. -/
def dispatchLoop {α : Type u} (P p : Nat) (dropLast : Bool) :
    Option (List α) → List (List α) → List (List α)
  | _, [] => []
  | fb, c :: rest =>
    let fb2 := match fb with
      | none => if dropLast then none else some (c.take P)
      | some x => some x
    let chunk := c.length / P
    let isLast := rest.isEmpty
    let pair :=
      if ¬ dropLast ∧ isLast ∧ c.length % P ≠ 0 then
        (c ++ (match fb2 with | none => [] | some x => x), chunk + 1)
      else (c, chunk)
    pySlice pair.1 (p * pair.2) ((p + 1) * pair.2) :: dispatchLoop P p dropLast fb2 rest

/-- The full per-process output of a `DataLoaderDispatcher` traversal over a
base loader yielding `base`. -/
def dispatcherYields {α : Type u} (P p : Nat) (dropLast splitBatches : Bool)
    (base : List (List α)) : List (List α) :=
  dispatchLoop P p dropLast none (dispatchRounds P dropLast splitBatches base)

/-- Specification mirror of the dispatcher slicing (written from the spec's
words, for the refinement claim about the wrap-around pool): the pool is
fixed up front, every round is sliced with `chunk = size / P`, and only the
final round, when its size is not divisible by `P`, is first extended with
the pool and sliced with `chunk + 1`. -/
def dispatchSpecSlices {α : Type u} (P p : Nat) (pool : List α) :
    List (List α) → List (List α)
  | [] => []
  | c :: rest =>
    let chunk := c.length / P
    (if rest.isEmpty ∧ c.length % P ≠ 0 then
      pySlice (c ++ pool) (p * (chunk + 1)) ((p + 1) * (chunk + 1))
    else
      pySlice c (p * chunk) ((p + 1) * chunk)) :: dispatchSpecSlices P p pool rest

/-- `SkipBatchSampler.__iter__` (lines 1322-1325): enumerate the wrapped
sampler and yield only the batches with index at least `skip_batches`. -/
def skipBatchSamplerIter {α : Type u} (src : List α) (skipBatches : Nat) : List α :=
  src.enum.filterMap (fun ix => if skipBatches ≤ ix.1 then some ix.2 else none)

/-- `SkipBatchSampler.__len__` (lines 1331-1332), over the integers since
Python subtraction does not truncate. -/
def skipBatchSamplerLen (L skipBatches : Nat) : Int :=
  (L : Int) - (skipBatches : Int)

/-- `SkipDataLoader.__iter__` (lines 1354-1360): enumerate the base loader
and yield only the batches with index at least `skip_batches`. -/
def skipDataLoaderIter {α : Type u} (src : List α) (skipBatches : Nat) : List α :=
  src.enum.filterMap (fun ix => if skipBatches ≤ ix.1 then some ix.2 else none)

/-- `SkipDataLoader.__len__` (lines 1362-1363). -/
def skipDataLoaderLen (L skipBatches : Nat) : Int :=
  (L : Int) - (skipBatches : Int)

instance {ε : Type u} {α : Type v} [DecidableEq ε] [DecidableEq α] :
    DecidableEq (Except ε α) := fun a b =>
  match a, b with
  | .error e, .error f =>
    if h : e = f then isTrue (by rw [h]) else isFalse (fun hc => h (Except.error.inj hc))
  | .error _, .ok _ => isFalse (fun hc => Except.noConfusion hc)
  | .ok _, .error _ => isFalse (fun hc => Except.noConfusion hc)
  | .ok x, .ok y =>
    if h : x = y then isTrue (by rw [h]) else isFalse (fun hc => h (Except.ok.inj hc))

/-- Closed form of the `_iter_with_no_split` loop state after the first `m`
batches of a source whose first `m` batches all have the nominal size `bs`
(established in `nsRun_phi`): `initial_data` holds the first `min m P`
batches, one batch was yielded per completed round, and `batch_to_yield`
holds this process's batch of the current round once the round has passed
slot `p`. -/
def nsPhi {α : Type u} (P p : Nat) (dropLast : Bool) (src : List (List α)) (m : Nat) :
    NSState α :=
  { initialData := if dropLast then [] else (src.take (min m P)).flatten,
    batchToYield := if p < m % P then src.getD (m / P * P + p) [] else [],
    out := (List.range (m / P)).map (fun a => src.getD (a * P + p) []) }

/-! ### Arithmetic helpers -/

theorem mul_add_div_mod (P q r : Nat) (hP : 0 < P) (hr : r < P) :
    (P * q + r) / P = q ∧ (P * q + r) % P = r := by
  rw [Nat.mul_add_div hP, Nat.mul_add_mod, Nat.div_eq_of_lt hr, Nat.mod_eq_of_lt hr,
    Nat.add_zero]
  exact ⟨rfl, rfl⟩

theorem div_ceil_eq (L P : Nat) (hP : 0 < P) :
    (L + (P - 1)) / P = L / P + (if L % P = 0 then 0 else 1) := by
  obtain ⟨q, r, hr, hL⟩ : ∃ q r, r < P ∧ L = P * q + r :=
    ⟨L / P, L % P, Nat.mod_lt L hP, (Nat.div_add_mod L P).symm⟩
  subst hL
  obtain ⟨hdiv, hmod⟩ := mul_add_div_mod P q r hP hr
  rw [hdiv, hmod]
  rcases Nat.eq_zero_or_pos r with hr0 | hr1
  · subst hr0
    rw [show P * q + 0 + (P - 1) = P * q + (P - 1) by ring, Nat.mul_add_div hP,
      Nat.div_eq_of_lt (by omega)]
    simp
  · have hexp : P * (q + 1) = P * q + P := by ring
    rw [show P * q + r + (P - 1) = P * (q + 1) + (r - 1) by omega, Nat.mul_add_div hP,
      Nat.div_eq_of_lt (by omega)]
    have : ¬ (r = 0) := by omega
    simp [this]

theorem mod_div_succ_lt (P m : Nat) (hP : 0 < P) (h : m % P + 1 < P) :
    (m + 1) % P = m % P + 1 ∧ (m + 1) / P = m / P := by
  obtain ⟨q, r, hr, hm⟩ : ∃ q r, r < P ∧ m = P * q + r :=
    ⟨m / P, m % P, Nat.mod_lt m hP, (Nat.div_add_mod m P).symm⟩
  obtain ⟨hdiv, hmod⟩ := mul_add_div_mod P q r hP hr
  have hr1 : r + 1 < P := by rw [hm, hmod] at h; exact h
  obtain ⟨hdiv1, hmod1⟩ := mul_add_div_mod P q (r + 1) hP hr1
  subst hm
  rw [hdiv, hmod, show P * q + r + 1 = P * q + (r + 1) by ring, hdiv1, hmod1]
  exact ⟨rfl, rfl⟩

theorem mod_div_succ_eq (P m : Nat) (hP : 0 < P) (h : m % P = P - 1) :
    (m + 1) % P = 0 ∧ (m + 1) / P = m / P + 1 := by
  obtain ⟨q, r, hr, hm⟩ : ∃ q r, r < P ∧ m = P * q + r :=
    ⟨m / P, m % P, Nat.mod_lt m hP, (Nat.div_add_mod m P).symm⟩
  obtain ⟨hdiv, hmod⟩ := mul_add_div_mod P q r hP hr
  have hrP : r = P - 1 := by rw [hm, hmod] at h; exact h
  have hexp : P * (q + 1) = P * q + P := by ring
  subst hm
  rw [hdiv, show P * q + r + 1 = P * (q + 1) by omega, Nat.mul_mod_right,
    Nat.mul_div_cancel_left _ hP]
  exact ⟨rfl, rfl⟩

theorem mod_div_pred (P L : Nat) (hP : 0 < P) (hL : 0 < L) :
    (L % P = 0 → (L - 1) % P = P - 1 ∧ (L - 1) / P = L / P - 1) ∧
    (0 < L % P → (L - 1) % P = L % P - 1 ∧ (L - 1) / P = L / P) := by
  obtain ⟨q, r, hr, hLe⟩ : ∃ q r, r < P ∧ L = P * q + r :=
    ⟨L / P, L % P, Nat.mod_lt L hP, (Nat.div_add_mod L P).symm⟩
  obtain ⟨hdiv, hmod⟩ := mul_add_div_mod P q r hP hr
  subst hLe
  rw [hdiv, hmod]
  constructor
  · intro h0
    subst h0
    have hq : 0 < q := by
      rcases Nat.eq_zero_or_pos q with h | h
      · subst h; simp at hL
      · exact h
    have hexp : P * q = P * (q - 1) + P := by
      have hq1 : q = (q - 1) + 1 := by omega
      calc P * q = P * ((q - 1) + 1) := by rw [← hq1]
        _ = P * (q - 1) + P := by ring
    obtain ⟨hdiv2, hmod2⟩ := mul_add_div_mod P (q - 1) (P - 1) hP (by omega)
    rw [show P * q + 0 - 1 = P * (q - 1) + (P - 1) by omega, hdiv2, hmod2]
    exact ⟨rfl, rfl⟩
  · intro h1
    obtain ⟨hdiv2, hmod2⟩ := mul_add_div_mod P q (r - 1) hP (by omega)
    rw [show P * q + r - 1 = P * q + (r - 1) by omega, hdiv2, hmod2]
    exact ⟨rfl, rfl⟩

/-! ### Basic facts about `pySlice` -/

theorem pySlice_length {α : Type u} (l : List α) (a b : Nat) (h : b ≤ l.length) :
    (pySlice l a b).length = b - a := by
  simp [pySlice]
  omega

theorem pySlice_sliceOf {α : Type u} (l : List α) (a b : Nat) :
    SliceOf l (pySlice l a b) := by
  refine ⟨l.take a, (l.drop a).drop (b - a), ?_⟩
  rw [pySlice, List.append_assoc, List.take_append_drop, List.take_append_drop]

theorem sliceOf_join {α : Type u} (l : List α) (ch : Nat) (n : Nat) :
    ((List.range n).map (fun p => pySlice l (p * ch) ((p + 1) * ch))).flatten
      = l.take (n * ch) := by
  induction n with
  | zero => simp
  | succ n ih =>
    rw [List.range_succ, List.map_append, List.flatten_append, ih]
    simp only [List.map_cons, List.map_nil, List.flatten_cons, List.flatten_nil,
      List.append_nil]
    rw [show (n + 1) * ch = n * ch + ch by ring, List.take_add, pySlice]
    congr 1
    congr 1
    omega

/-! ### Claim C2: `BatchSamplerShard.__len__` -/

/-- C2 counterexample: with `split_batches=True` the reported length is the
source length `L`, not the floor division `L / P`, so the claimed ceil/floor
formulas fail there (`L = 3`, `P = 2`, `drop_last=True`). -/
theorem batchSamplerShardLen_split_cex :
    ¬ (batchSamplerShardLen 3 2 0 true true true = 3 / 2) := by decide

/-- C2 (amended): with `split_batches=False`, `BatchSamplerShard.__len__` is
`⌊L/P⌋` for `drop_last=True`, `⌈L/P⌉` for `drop_last=False` with
`even_batches=True`, and `⌊L/P⌋` plus one exactly for process indices below
`L mod P` otherwise; with `split_batches=True` it is `L` unchanged. -/
theorem batchSamplerShardLen_cases (L P p : Nat) (dl eb : Bool) (hP : 0 < P) :
    batchSamplerShardLen L P p true dl eb = L ∧
    batchSamplerShardLen L P p false true eb = L / P ∧
    batchSamplerShardLen L P p false false true = (L + (P - 1)) / P ∧
    batchSamplerShardLen L P p false false false
      = L / P + (if p < L % P then 1 else 0) := by
  refine ⟨by simp [batchSamplerShardLen], ?_, ?_, ?_⟩
  · by_cases h : L % P = 0 <;> simp [batchSamplerShardLen, h]
  · rw [div_ceil_eq L P hP]
    by_cases h : L % P = 0 <;> simp [batchSamplerShardLen, h]
  · by_cases h : L % P = 0
    · simp [batchSamplerShardLen, h]
    · by_cases hp : p < L % P <;> simp [batchSamplerShardLen, h, hp]

/-- C2 witness: the amended length formulas at `L = 5`, `P = 2`, `p = 1`. -/
theorem batchSamplerShardLen_cases_witness :
    batchSamplerShardLen 5 2 1 true true true = 5 ∧
    batchSamplerShardLen 5 2 1 false true true = 5 / 2 ∧
    batchSamplerShardLen 5 2 1 false false true = (5 + (2 - 1)) / 2 ∧
    batchSamplerShardLen 5 2 1 false false false
      = 5 / 2 + (if 1 < 5 % 2 then 1 else 0) :=
  batchSamplerShardLen_cases 5 2 1 true true (by decide)

/-! ### Claim C3: construction-time checks -/

/-- C3 counterexample: `IterableDatasetShard` accepts `split_batches=True`
with `batch_size = 1` and `num_processes = 2` even though `1 % 2 ≠ 0`; the
divisibility check only fires for `batch_size > 1`. -/
theorem iterableDatasetShardInit_cex :
    iterableDatasetShardInit 1 2 true = Except.ok () ∧ 1 % 2 ≠ 0 := by decide

/-- C3 (amended): `BatchSamplerShard` construction succeeds iff the
`split_batches` divisibility check passes (which also needs a present
`batch_size` attribute) and `even_batches=True` comes with a discoverable
batch size; `IterableDatasetShard` construction fails exactly for
`split_batches=True` with `batch_size > 1` not divisible by
`num_processes`. -/
theorem shardInit_characterization (bs? : Option Nat) (bs P : Nat)
    (split even : Bool) :
    (batchSamplerShardInit bs? P split even = Except.ok () ↔
      ((split = true → ∃ b, bs? = some b ∧ b % P = 0) ∧
        ¬ (bs? = none ∧ even = true))) ∧
    (iterableDatasetShardInit bs P split = Except.ok () ↔
      ¬ (split = true ∧ 1 < bs ∧ bs % P ≠ 0)) := by
  constructor
  · rcases bs? with _ | b
    · cases split <;> cases even <;>
        simp [batchSamplerShardInit, throw, throwThe, MonadExceptOf.throw, pure,
          Except.pure]
    · cases split <;> cases even <;>
        (try by_cases h : b % P = 0) <;>
        simp [batchSamplerShardInit, throw, throwThe, MonadExceptOf.throw, pure,
          Except.pure, h]
  · by_cases h : split = true ∧ 1 < bs ∧ bs % P ≠ 0 <;>
      simp only [iterableDatasetShardInit, throw, throwThe, MonadExceptOf.throw,
        pure, Except.pure, if_pos, if_neg, h] <;>
      simp [h]

/-! ### Claim C6: the `IterableDatasetShard` concrete scenario -/

/-- C6 counterexample: on the stream `[0..7]` with `num_processes = 2`,
`batch_size = 1` and `split_batches=True`, the per-process slice width is
`1 / 2 = 0`, so process 0 yields nothing rather than `[0, 1, 4, 5]`. -/
theorem iterableDatasetShard_bs1_cex :
    iterableDatasetShardIter 1 2 0 false true [0, 1, 2, 3, 4, 5, 6, 7] = ([] : List Nat) ∧
    ([] : List Nat) ≠ [0, 1, 4, 5] := by decide

/-- C6 (amended): the scenario holds with `batch_size = 4` (the batch size of
the docstring example): process 0 yields `[0, 1, 4, 5]` and process 1 yields
`[2, 3, 6, 7]`. -/
theorem iterableDatasetShard_scenario :
    iterableDatasetShardIter 4 2 0 false true [0, 1, 2, 3, 4, 5, 6, 7] = [0, 1, 4, 5] ∧
    iterableDatasetShardIter 4 2 1 false true [0, 1, 2, 3, 4, 5, 6, 7] = [2, 3, 6, 7] := by
  decide

/-! ### Claim C7: the skip wrappers -/

theorem enumFrom_skip {α : Type u} (k : Nat) (src : List α) :
    ∀ n, (List.enumFrom n src).filterMap
        (fun ix => if k ≤ ix.1 then some ix.2 else none) = src.drop (k - n) := by
  induction src with
  | nil => intro n; simp
  | cons a l ih =>
    intro n
    by_cases h : k ≤ n
    · rw [List.enumFrom_cons, List.filterMap_cons]
      simp only [h, if_pos]
      rw [ih (n + 1), show k - n = 0 by omega, show k - (n + 1) = 0 by omega]
      simp
    · rw [List.enumFrom_cons, List.filterMap_cons]
      simp only [h, if_neg, not_false_iff]
      rw [ih (n + 1), show k - n = (k - (n + 1)) + 1 by omega, List.drop_succ_cons]

/-- C7: both skip wrappers yield exactly the suffix of the wrapped sequence
from index `k` onward, and both report length `L - k` (over `ℤ`, as Python
subtraction does). -/
theorem skipWrapper_spec {α : Type u} (src : List α) (k : Nat) :
    skipBatchSamplerIter src k = src.drop k ∧
    skipDataLoaderIter src k = src.drop k ∧
    skipBatchSamplerLen src.length k = (src.length : Int) - (k : Int) ∧
    skipDataLoaderLen src.length k = (src.length : Int) - (k : Int) := by
  have h : src.enum.filterMap (fun ix => if k ≤ ix.1 then some ix.2 else none)
      = src.drop k := by
    have := enumFrom_skip k src 0
    simpa [List.enum] using this
  exact ⟨h, h, rfl, rfl⟩

/-! ### Claim C8: `DataLoaderStateMixin.begin` -/

/-- C8: `begin()` always clears `end_of_dataloader`, always registers the
session, and sets `remainder` to the dataset length modulo the total batch
size exactly when `drop_last=False` and that computation succeeds; every
failure of the computation (missing length, missing batch size, zero batch
size) is swallowed and leaves the sentinel `-1`. -/
theorem beginSession_spec (dl : Bool) (len? tbs? : Option Nat) :
    (beginSession dl len? tbs?).endOfDataloader = false ∧
    (beginSession dl len? tbs?).registered = true ∧
    (dl = true → (beginSession dl len? tbs?).remainder = -1) ∧
    (∀ e, computeRemainder len? tbs? = .error e →
      (beginSession dl len? tbs?).remainder = -1) ∧
    (∀ r, dl = false → computeRemainder len? tbs? = .ok r →
      (beginSession dl len? tbs?).remainder = r) ∧
    (∀ l t, dl = false → len? = some l → tbs? = some t → 0 < t →
      (beginSession dl len? tbs?).remainder = (l : Int) % (t : Int)) := by
  cases dl
  · cases h : computeRemainder len? tbs? with
    | error e =>
      refine ⟨by simp [beginSession, h], by simp [beginSession, h], by simp, ?_, ?_, ?_⟩
      · intro e2 _
        simp [beginSession, h]
      · intro r _ hr
        exact absurd hr (fun hc => Except.noConfusion hc)
      · intro l t _ hl ht hpos
        subst hl; subst ht
        rw [show computeRemainder (some l) (some t)
            = .ok ((l : Int) % (t : Int)) by
          simp [computeRemainder, Nat.pos_iff_ne_zero.mp hpos, pure, Except.pure]] at h
        exact absurd h (fun hc => Except.noConfusion hc)
    | ok r =>
      refine ⟨by simp [beginSession, h], by simp [beginSession, h], by simp, ?_, ?_, ?_⟩
      · intro e2 he2
        exact absurd he2 (fun hc => Except.noConfusion hc)
      · intro r2 _ hr2
        rw [← Except.ok.inj hr2]
        simp [beginSession, h]
      · intro l t _ hl ht hpos
        subst hl; subst ht
        simp [beginSession, computeRemainder, Nat.pos_iff_ne_zero.mp hpos, pure,
          Except.pure]
  · refine ⟨by simp [beginSession], by simp [beginSession], fun _ => by simp [beginSession],
      fun _ _ => by simp [beginSession], fun _ h => by simp at h, fun _ _ h => by simp at h⟩

/-- C8 witness: a successful remainder computation (`drop_last=False`,
length 10, total batch size 4, remainder 2) and a swallowed failure. -/
theorem beginSession_spec_witness :
    (beginSession false (some 10) (some 4)).remainder = (10 : Int) % (4 : Int) ∧
    (beginSession false (some 10) none).remainder = -1 := by
  constructor
  · exact (beginSession_spec false (some 10) (some 4)).2.2.2.2.2 10 4 rfl rfl rfl
      (by decide)
  · exact (beginSession_spec false (some 10) none).2.2.2.1 () rfl

/-! ### Claim C9: checkpoint adjustment -/

/-- C9 counterexample: with `num_processes = 2` and `batch_size = 2`, a
captured `samples_yielded` of `4` is stored as `4 - 2·(2-1) = 2`, not as
`4 - (2-1) = 3`: the sample-level counter is decremented by
`batch_size · (num_processes - 1)`, not by the factor itself. -/
theorem updateStateDict_cex :
    (updateStateDict true 2 2 false
        { samplerIterYielded := 1, numYielded := 1,
          indexSamplerState := some (some 4) }).dlState.indexSamplerState
      ≠ some (some ((4 : Int) - ((2 : Int) - 1))) := by decide

/-- C9 (amended): under multi-process sharding every captured checkpoint has
`_sampler_iter_yielded` and `_num_yielded` decremented by
`num_processes - 1` when positive (left unchanged otherwise),
`samples_yielded` decremented by `batch_size · (num_processes - 1)` when
present and positive, and carries an `_iterator_finished` flag equal to the
session's current `end_of_dataloader` value. -/
theorem updateStateDict_spec (P : Nat) (bsz : Int) (eod : Bool) (sd : DLStateDict) :
    (updateStateDict true P bsz eod sd).iteratorFinished = eod ∧
    (updateStateDict true P bsz eod sd).dlState.samplerIterYielded
      = (if 0 < sd.samplerIterYielded then sd.samplerIterYielded - ((P : Int) - 1)
        else sd.samplerIterYielded) ∧
    (updateStateDict true P bsz eod sd).dlState.numYielded
      = (if 0 < sd.numYielded then sd.numYielded - ((P : Int) - 1)
        else sd.numYielded) ∧
    (updateStateDict true P bsz eod sd).dlState.indexSamplerState
      = (match sd.indexSamplerState with
        | some (some v) =>
          if 0 < v then some (some (v - bsz * ((P : Int) - 1))) else some (some v)
        | other => other) := by
  refine ⟨rfl, ?_, ?_, ?_⟩ <;> simp [updateStateDict, adjustStateDictForPrefetch]

/-! ### Dispatcher lemmas (claims C4 and C5) -/

theorem dispatchLoop_some {α : Type u} (P p : Nat) (pool : List α) (R : List (List α)) :
    dispatchLoop P p false (some pool) R = dispatchSpecSlices P p pool R := by
  induction R with
  | nil => rfl
  | cons c rest ih =>
    by_cases hL : rest.isEmpty <;> by_cases hm : c.length % P = 0 <;>
      simp [dispatchLoop, dispatchSpecSlices, hL, hm, ih]

theorem dispatchLoop_none {α : Type u} (P p : Nat) (c0 : List α) (rest : List (List α)) :
    dispatchLoop P p false none (c0 :: rest)
      = dispatchSpecSlices P p (c0.take P) (c0 :: rest) := by
  by_cases hL : rest.isEmpty <;> by_cases hm : c0.length % P = 0 <;>
    simp [dispatchLoop, dispatchSpecSlices, hL, hm, dispatchLoop_some]

theorem dispatchLoop_dropLast {α : Type u} (P p : Nat) (fb : Option (List α))
    (R : List (List α)) :
    dispatchLoop P p true fb R
      = R.map (fun c => pySlice c (p * (c.length / P)) ((p + 1) * (c.length / P))) := by
  induction R generalizing fb with
  | nil => rfl
  | cons c rest ih =>
    cases fb <;> simp [dispatchLoop, ih]

theorem dispatchSpecSlices_getD {α : Type u} (P p : Nat) (pool : List α) :
    ∀ (R : List (List α)) (k : Nat), k < R.length → (R.getD k []).length % P = 0 →
      (dispatchSpecSlices P p pool R).getD k []
        = pySlice (R.getD k []) (p * ((R.getD k []).length / P))
            ((p + 1) * ((R.getD k []).length / P)) := by
  intro R
  induction R with
  | nil => intro k hk; simp at hk
  | cons c rest ih =>
    intro k hk hdiv
    cases k with
    | zero =>
      simp only [List.getD_cons_zero] at hdiv ⊢
      simp [dispatchSpecSlices, hdiv]
    | succ k =>
      simp only [List.getD_cons_succ] at hdiv ⊢
      simp only [dispatchSpecSlices, List.getD_cons_succ]
      exact ih k (by simpa using hk) hdiv

theorem dispatcherYields_getD {α : Type u} (P p : Nat) (dl split : Bool)
    (base : List (List α)) (k : Nat)
    (hk : k < (dispatchRounds P dl split base).length)
    (hdiv : ((dispatchRounds P dl split base).getD k []).length % P = 0) :
    (dispatcherYields P p dl split base).getD k []
      = pySlice ((dispatchRounds P dl split base).getD k [])
          (p * (((dispatchRounds P dl split base).getD k []).length / P))
          ((p + 1) * (((dispatchRounds P dl split base).getD k []).length / P)) := by
  cases dl
  · rw [dispatcherYields]
    cases hR : dispatchRounds P false split base with
    | nil => rw [hR] at hk; simp at hk
    | cons c0 rest =>
      rw [hR] at hk hdiv
      rw [dispatchLoop_none, dispatchSpecSlices_getD P p _ _ k hk hdiv]
  · rw [dispatcherYields, dispatchLoop_dropLast]
    have hk2 : k < ((dispatchRounds P true split base).map
        (fun c => pySlice c (p * (c.length / P)) ((p + 1) * (c.length / P)))).length := by
      simpa using hk
    rw [List.getD_eq_getElem _ _ hk2, List.getElem_map,
      List.getD_eq_getElem _ _ hk]

theorem dispatchSpecSlices_getD_last {α : Type u} (P p : Nat) (pool : List α) :
    ∀ (R : List (List α)) (k : Nat), k + 1 = R.length → (R.getD k []).length % P ≠ 0 →
      (dispatchSpecSlices P p pool R).getD k []
        = pySlice ((R.getD k []) ++ pool) (p * ((R.getD k []).length / P + 1))
            ((p + 1) * ((R.getD k []).length / P + 1)) := by
  intro R
  induction R with
  | nil => intro k hk _; simp at hk
  | cons c rest ih =>
    intro k hk hnd
    cases k with
    | zero =>
      have hrest : rest = [] := by
        cases rest with
        | nil => rfl
        | cons a t =>
          simp only [List.length_cons] at hk
          omega
      subst hrest
      simp only [List.getD_cons_zero] at hnd ⊢
      simp [dispatchSpecSlices, hnd]
    | succ k =>
      simp only [List.getD_cons_succ] at hnd ⊢
      simp only [dispatchSpecSlices, List.getD_cons_succ]
      exact ih k (by simpa using hk) hnd

theorem dispatcherYields_getD_last {α : Type u} (P p : Nat) (split : Bool)
    (base : List (List α)) (k : Nat)
    (hk : k + 1 = (dispatchRounds P false split base).length)
    (hnd : ((dispatchRounds P false split base).getD k []).length % P ≠ 0) :
    (dispatcherYields P p false split base).getD k []
      = pySlice (((dispatchRounds P false split base).getD k [])
            ++ ((dispatchRounds P false split base).headD []).take P)
          (p * (((dispatchRounds P false split base).getD k []).length / P + 1))
          ((p + 1) * (((dispatchRounds P false split base).getD k []).length / P + 1)) := by
  rw [dispatcherYields]
  cases hR : dispatchRounds P false split base with
  | nil => rw [hR] at hk; simp at hk
  | cons c0 rest =>
    rw [hR] at hk hnd
    rw [dispatchLoop_none, dispatchSpecSlices_getD_last P p _ _ k hk hnd]
    simp

/-! ### Claim C4: dispatcher slice round-trip -/

/-- C4 counterexample: `P = 2`, `drop_last=False`, base batches
`[[0], [1], [2]]` give rounds `[[0, 1], [2]]`; on the final round the padded
slices are `[2]` and `[0]`, whose concatenation `[2, 0]` is not the fetched
combined batch `[2]`. -/
theorem dispatcher_roundtrip_cex :
    ((List.range 2).map
        (fun p => (dispatcherYields 2 p false false [[0], [1], [2]]).getD 1 [])).flatten
      ≠ (dispatchRounds 2 false false [[0], [1], [2]]).getD 1 ([] : List Nat) := by
  decide

/-- C4 (amended): for every round `k` whose combined batch size is divisible
by `num_processes` (in particular every non-final round when
`split_batches=False`), concatenating the slices yielded to all processes in
process-index order reproduces exactly the combined batch fetched for round
`k`; and on a padded final round (`drop_last=False`, size not divisible by
`P`) the concatenation instead equals the combined batch extended with the
first `P - size % P` items of the wrap-around pool (the leading `P` items of
the first combined batch). -/
theorem dispatcher_roundtrip {α : Type u} (P : Nat) (dl split : Bool)
    (base : List (List α)) (hP : 0 < P) (k : Nat)
    (hk : k < (dispatchRounds P dl split base).length) :
    (((dispatchRounds P dl split base).getD k []).length % P = 0 →
      ((List.range P).map
          (fun p => (dispatcherYields P p dl split base).getD k [])).flatten
        = (dispatchRounds P dl split base).getD k []) ∧
    (dl = false → k + 1 = (dispatchRounds P dl split base).length →
      ((dispatchRounds P dl split base).getD k []).length % P ≠ 0 →
      ((List.range P).map
          (fun p => (dispatcherYields P p dl split base).getD k [])).flatten
        = (dispatchRounds P dl split base).getD k []
          ++ (((dispatchRounds P dl split base).headD []).take P).take
              (P - ((dispatchRounds P dl split base).getD k []).length % P)) := by
  constructor
  · intro hdiv
    have hmap : (List.range P).map
        (fun p => (dispatcherYields P p dl split base).getD k [])
        = (List.range P).map
          (fun p => pySlice ((dispatchRounds P dl split base).getD k [])
            (p * (((dispatchRounds P dl split base).getD k []).length / P))
            ((p + 1) * (((dispatchRounds P dl split base).getD k []).length / P))) := by
      apply List.map_congr_left
      intro pr _
      exact dispatcherYields_getD P pr dl split base k hk hdiv
    rw [hmap, sliceOf_join,
      Nat.mul_div_cancel' (Nat.dvd_of_mod_eq_zero hdiv), List.take_length]
  · intro hdl hlast hnd
    subst hdl
    have hmap : (List.range P).map
        (fun p => (dispatcherYields P p false split base).getD k [])
        = (List.range P).map
          (fun p => pySlice (((dispatchRounds P false split base).getD k [])
              ++ ((dispatchRounds P false split base).headD []).take P)
            (p * (((dispatchRounds P false split base).getD k []).length / P + 1))
            ((p + 1) * (((dispatchRounds P false split base).getD k []).length / P + 1))) := by
      apply List.map_congr_left
      intro pr _
      exact dispatcherYields_getD_last P pr split base k hlast hnd
    have key : P * (((dispatchRounds P false split base).getD k []).length / P + 1)
        = ((dispatchRounds P false split base).getD k []).length
          + (P - ((dispatchRounds P false split base).getD k []).length % P) := by
      have hqr := Nat.div_add_mod ((dispatchRounds P false split base).getD k []).length P
      have hlt := Nat.mod_lt ((dispatchRounds P false split base).getD k []).length hP
      rw [Nat.mul_succ]
      generalize P * (((dispatchRounds P false split base).getD k []).length / P) = X
        at hqr ⊢
      generalize ((dispatchRounds P false split base).getD k []).length % P = r
        at hqr hlt ⊢
      generalize ((dispatchRounds P false split base).getD k []).length = n at hqr ⊢
      omega
    rw [hmap, sliceOf_join, key, List.take_append_eq_append_take,
      List.take_of_length_le (Nat.le_add_right _ _), Nat.add_sub_cancel_left]

/-- C4 witness: `P = 2`, base `[[0], [1], [2]]` — the divisible round 0
(`[0, 1]`) is reproduced exactly by its two slices, and the padded final
round 1 (`[2]`) concatenates to the round extended with the first item of
the wrap-around pool `[0, 1]`. -/
theorem dispatcher_roundtrip_witness :
    (((List.range 2).map
        (fun p => (dispatcherYields 2 p false false [[0], [1], [2]]).getD 0 [])).flatten
      = (dispatchRounds 2 false false [[0], [1], [2]]).getD 0 ([] : List Nat)) ∧
    (((List.range 2).map
        (fun p => (dispatcherYields 2 p false false [[0], [1], [2]]).getD 1 [])).flatten
      = (dispatchRounds 2 false false [[0], [1], [2]]).getD 1 ([] : List Nat)
        ++ (((dispatchRounds 2 false false
              ([[0], [1], [2]] : List (List Nat))).headD []).take 2).take
            (2 - ((dispatchRounds 2 false false
              ([[0], [1], [2]] : List (List Nat))).getD 1 []).length % 2)) :=
  ⟨(dispatcher_roundtrip 2 false false [[0], [1], [2]] (by decide) 0 (by decide)).1
      (by decide),
   (dispatcher_roundtrip 2 false false [[0], [1], [2]] (by decide) 1 (by decide)).2
      rfl (by decide) (by decide)⟩

/-! ### Claim C5: the wrap-around pool of the dispatcher -/

/-- C5: with `drop_last=False`, the slicing loop of
`DataLoaderDispatcher.__iter__` behaves exactly as the specification slicing
`dispatchSpecSlices` in which the pool is the leading `num_processes` items
of the first combined batch, every round is sliced with
`chunk = size / num_processes`, and only the final round, when its size is
not divisible by `num_processes`, is extended with the pool and sliced with
`chunk + 1`. -/
theorem dispatcher_pool_spec {α : Type u} (P p : Nat) (split : Bool)
    (base : List (List α)) (h : dispatchRounds P false split base ≠ []) :
    dispatcherYields P p false split base
      = dispatchSpecSlices P p
          (((dispatchRounds P false split base).headD []).take P)
          (dispatchRounds P false split base) := by
  rw [dispatcherYields]
  cases hR : dispatchRounds P false split base with
  | nil => exact absurd hR h
  | cons c0 rest =>
    rw [List.headD_cons]
    exact dispatchLoop_none P p c0 rest

/-- C5 witness: `P = 2`, base `[[0], [1], [2]]` has rounds `[[0, 1], [2]]`;
the loop output equals the specification slicing with pool `[0, 1]`. -/
theorem dispatcher_pool_spec_witness :
    dispatcherYields 2 0 false false [[0], [1], [2]]
      = dispatchSpecSlices 2 0
          (((dispatchRounds 2 false false [[0], [1], [2]]).headD []).take 2)
          (dispatchRounds 2 false false ([[0], [1], [2]] : List (List Nat))) :=
  dispatcher_pool_spec 2 0 false [[0], [1], [2]] (by decide)

/-! ### Closed-form characterization of the `_iter_with_no_split` loop -/

theorem nsPhi_zero {α : Type u} (P p : Nat) (dl : Bool) (src : List (List α)) :
    nsPhi P p dl src 0 = (⟨[], [], []⟩ : NSState α) := by
  cases dl <;> simp [nsPhi]

theorem nsPhi_step {α : Type u} (P p bs : Nat) (dl : Bool) (src : List (List α)) (m : Nat)
    (hP : 0 < P) (hp : p < P) (hm : m < src.length)
    (hfull : (src.getD m []).length = bs) :
    nsStep P p (some bs) dl m (nsPhi P p dl src m) (src.getD m [])
      = nsPhi P p dl src (m + 1) := by
  have hdm := Nat.div_add_mod' m P
  have hr : m % P < P := Nat.mod_lt m hP
  have hall : ((some bs).all (fun bsv => (src.getD m []).length == bsv))
      = ((src.getD m []).length == bs) := rfl
  have hInit : (if ¬ dl ∧ m < P then (nsPhi P p dl src m).initialData ++ src.getD m []
      else (nsPhi P p dl src m).initialData) = (nsPhi P p dl src (m + 1)).initialData := by
    cases dl
    · simp only [nsPhi, Bool.false_eq_true, not_false_iff, true_and, if_pos]
      by_cases hmP : m < P
      · rw [if_pos hmP, Nat.min_eq_left (by omega : m ≤ P),
          Nat.min_eq_left (by omega : m + 1 ≤ P), List.take_succ,
          List.getElem?_eq_getElem hm, List.getD_eq_getElem src [] hm]
        simp only [Option.toList_some, List.flatten_append, List.flatten_cons,
          List.flatten_nil, List.append_nil]
        simp
      · rw [if_neg hmP, Nat.min_eq_right (by omega : P ≤ m),
          Nat.min_eq_right (by omega : P ≤ m + 1)]
    · simp [nsPhi]
  have hbty : (if m % P = p then src.getD m [] else (nsPhi P p dl src m).batchToYield)
      = (if p ≤ m % P then src.getD (m / P * P + p) [] else []) := by
    by_cases hpp : m % P = p
    · rw [if_pos hpp, if_pos (by omega)]
      congr 1
      omega
    · rw [if_neg hpp]
      simp only [nsPhi]
      by_cases hplt : p < m % P
      · rw [if_pos hplt, if_pos (by omega)]
      · rw [if_neg hplt, if_neg (by omega)]
  by_cases hlast : m % P = P - 1
  · obtain ⟨hmod, hdiv⟩ := mod_div_succ_eq P m hP hlast
    have hguard : m % P = P - 1 ∧
        ((some bs).all (fun bsv => (src.getD m []).length == bsv)) = true := by
      refine ⟨hlast, ?_⟩
      rw [hall, hfull]
      exact beq_self_eq_true bs
    simp only [nsStep]
    rw [if_pos hguard]
    refine NSState.ext ?_ ?_ ?_
    · exact hInit
    · simp only [nsPhi, hmod]
      rw [if_neg (by omega)]
    · rw [show ((⟨(if ¬ dl ∧ m < P then (nsPhi P p dl src m).initialData ++ src.getD m []
          else (nsPhi P p dl src m).initialData), [],
          (nsPhi P p dl src m).out ++ [if m % P = p then src.getD m []
            else (nsPhi P p dl src m).batchToYield]⟩ : NSState α)).out
          = (nsPhi P p dl src m).out ++ [if m % P = p then src.getD m []
            else (nsPhi P p dl src m).batchToYield] from rfl, hbty,
        if_pos (by omega : p ≤ m % P)]
      simp only [nsPhi, hdiv, List.range_succ, List.map_append, List.map_cons,
        List.map_nil]
  · have hlt : m % P + 1 < P := by omega
    obtain ⟨hmod, hdiv⟩ := mod_div_succ_lt P m hP hlt
    have hguard : ¬ (m % P = P - 1 ∧
        ((some bs).all (fun bsv => (src.getD m []).length == bsv)) = true) := by
      intro hc
      exact hlast hc.1
    simp only [nsStep]
    rw [if_neg hguard]
    refine NSState.ext ?_ ?_ ?_
    · exact hInit
    · rw [show ((⟨(if ¬ dl ∧ m < P then (nsPhi P p dl src m).initialData ++ src.getD m []
          else (nsPhi P p dl src m).initialData),
          (if m % P = p then src.getD m [] else (nsPhi P p dl src m).batchToYield),
          (nsPhi P p dl src m).out⟩ : NSState α)).batchToYield
          = (if m % P = p then src.getD m [] else (nsPhi P p dl src m).batchToYield)
          from rfl, hbty]
      simp only [nsPhi, hmod, hdiv]
      by_cases hple : p ≤ m % P
      · rw [if_pos hple, if_pos (by omega)]
      · rw [if_neg hple, if_neg (by omega)]
    · simp only [nsPhi, hdiv]

theorem nsRun_phi {α : Type u} (P p bs : Nat) (dl : Bool) (src : List (List α))
    (hP : 0 < P) (hp : p < P)
    (hfull : ∀ i, i < src.length → (src.getD i []).length = bs) :
    ∀ k m, m + k = src.length →
      nsRun P p (some bs) dl m (nsPhi P p dl src m) (src.drop m)
        = nsPhi P p dl src src.length := by
  intro k
  induction k with
  | zero =>
    intro m hm
    have hme : m = src.length := by omega
    subst hme
    rw [List.drop_length]
    rfl
  | succ k ih =>
    intro m hm
    have hmlt : m < src.length := by omega
    rw [List.drop_eq_getElem_cons hmlt, nsRun,
      show src[m] = src.getD m [] from (List.getD_eq_getElem src [] hmlt).symm,
      nsPhi_step P p bs dl src m hP hp hmlt (hfull m hmlt)]
    exact ih (m + 1) (by omega)

theorem nsRun_full {α : Type u} (P p bs : Nat) (dl : Bool) (src : List (List α))
    (hP : 0 < P) (hp : p < P)
    (hfull : ∀ i, i < src.length → (src.getD i []).length = bs) :
    nsRun P p (some bs) dl 0 (⟨[], [], []⟩ : NSState α) src
      = nsPhi P p dl src src.length := by
  have h0 := nsPhi_zero P p dl src
  rw [← h0, show src = src.drop 0 from (List.drop_zero src).symm]
  rw [show (src.drop 0).length = src.length by rw [List.drop_zero]]
  exact nsRun_phi P p bs dl src hP hp hfull src.length 0 (by omega)

theorem nsRun_append {α : Type u} (P p : Nat) (bs? : Option Nat) (dl : Bool) :
    ∀ (l1 l2 : List (List α)) (idx : Nat) (s : NSState α),
      nsRun P p bs? dl idx s (l1 ++ l2)
        = nsRun P p bs? dl (idx + l1.length) (nsRun P p bs? dl idx s l1) l2 := by
  intro l1
  induction l1 with
  | nil =>
    intro l2 idx s
    simp [nsRun]
  | cons b rest ih =>
    intro l2 idx s
    simp only [List.cons_append, nsRun, List.length_cons, List.append_eq]
    rw [ih, show idx + (rest.length + 1) = idx + 1 + rest.length by omega]

theorem nsRun_concat {α : Type u} (P p bs : Nat) (dl : Bool)
    (init : List (List α)) (lastB : List α) (hP : 0 < P) (hp : p < P)
    (hfull_init : ∀ i, i < init.length → (init.getD i []).length = bs) :
    nsRun P p (some bs) dl 0 (⟨[], [], []⟩ : NSState α) (init ++ [lastB])
      = nsStep P p (some bs) dl init.length (nsPhi P p dl init init.length) lastB := by
  rw [nsRun_append, nsRun_full P p bs dl init hP hp hfull_init, Nat.zero_add]
  rfl

theorem take_min_length {α : Type u} (l : List α) (P : Nat) :
    l.take (min l.length P) = l.take P := by
  rcases Nat.le_total l.length P with h | h
  · rw [Nat.min_eq_left h, List.take_length, List.take_of_length_le h]
  · rw [Nat.min_eq_right h]

theorem flatten_take_ne_nil {α : Type u} (l : List (List α)) (P : Nat) (hP : 0 < P)
    (hne : l ≠ []) (hhead : ∀ b ∈ l, b ≠ []) :
    (l.take P).flatten ≠ [] := by
  cases l with
  | nil => exact absurd rfl hne
  | cons b rest =>
    obtain ⟨k, hk⟩ : ∃ k, P = k + 1 := ⟨P - 1, by omega⟩
    subst hk
    rw [List.take_succ_cons, List.flatten_cons]
    have hb : b ≠ [] := hhead b (by simp)
    intro hc
    rw [List.append_eq_nil] at hc
    exact hb hc.1

/-! ### The doubling and cycling loops -/

theorem replicate_flatten_double {α : Type u} (l : List α) :
    ∀ m, (List.replicate m (l ++ l)).flatten = (List.replicate (2 * m) l).flatten := by
  intro m
  induction m with
  | zero => simp
  | succ m ih =>
    rw [List.replicate_succ, List.flatten_cons, ih,
      show 2 * (m + 1) = 2 * m + 1 + 1 by omega, List.replicate_succ,
      List.replicate_succ, List.flatten_cons, List.flatten_cons, List.append_assoc]

theorem expandData_rep {α : Type u} :
    ∀ (f : Nat) (l : List α) (t : Nat),
      ∃ m, 1 ≤ m ∧ expandData f l t = (List.replicate m l).flatten := by
  intro f
  induction f with
  | zero =>
    intro l t
    exact ⟨1, Nat.le_refl 1, by simp [expandData]⟩
  | succ f ih =>
    intro l t
    simp only [expandData]
    by_cases h : l.length < t
    · rw [if_pos h]
      obtain ⟨m, hm, he⟩ := ih (l ++ l) t
      exact ⟨2 * m, by omega, by rw [he, replicate_flatten_double]⟩
    · rw [if_neg h]
      exact ⟨1, Nat.le_refl 1, by simp⟩

theorem expandData_length {α : Type u} :
    ∀ (f : Nat) (l : List α) (t : Nat), l ≠ [] → t ≤ f + l.length →
      t ≤ (expandData f l t).length := by
  intro f
  induction f with
  | zero =>
    intro l t hne h
    simpa [expandData] using h
  | succ f ih =>
    intro l t hne h
    have hlp : 0 < l.length := List.length_pos.mpr hne
    simp only [expandData]
    by_cases hlt : l.length < t
    · rw [if_pos hlt]
      apply ih (l ++ l) t (by simp [hne])
      rw [List.length_append]
      omega
    · rw [if_neg hlt]
      omega

theorem cycleRounds_length {α : Type u} (P p bs : Nat) (initExp : List α)
    (hP : 0 < P) (hp : p < P) :
    ∀ (n c idx : Nat), idx % P + n ≤ P →
      (cycleRounds P p bs initExp n c idx).length
        = if idx % P ≤ p ∧ p < idx % P + n then 1 else 0 := by
  intro n
  induction n with
  | zero =>
    intro c idx h
    rw [if_neg (by omega)]
    rfl
  | succ n ih =>
    intro c idx h
    simp only [cycleRounds]
    by_cases hstop : idx % P + 1 = P
    · have hn0 : n = 0 := by omega
      subst hn0
      by_cases hpp : idx % P = p
      · rw [if_pos hpp, if_pos (by omega)]
        rfl
      · rw [if_neg hpp, if_neg (by omega)]
        rfl
    · have hlt : idx % P + 1 < P := by omega
      obtain ⟨hmod, _⟩ := mod_div_succ_lt P idx hP hlt
      have hrec := ih (c + bs) (idx + 1) (by rw [hmod]; omega)
      rw [hmod] at hrec
      by_cases hpp : idx % P = p
      · rw [if_pos hpp, List.length_cons, hrec, if_neg (by omega), if_pos (by omega)]
      · rw [if_neg hpp, hrec]
        by_cases hcond : idx % P + 1 ≤ p ∧ p < idx % P + 1 + n
        · rw [if_pos hcond, if_pos (by omega)]
        · rw [if_neg hcond, if_neg (by omega)]

theorem cycleRounds_sizes {α : Type u} (P p bs : Nat) (initExp : List α) :
    ∀ (n c idx : Nat), c + n * bs ≤ initExp.length →
      ∀ b ∈ cycleRounds P p bs initExp n c idx, b.length = bs := by
  intro n
  induction n with
  | zero =>
    intro c idx _ b hb
    simp [cycleRounds] at hb
  | succ n ih =>
    intro c idx h b hb
    rw [Nat.succ_mul] at h
    simp only [cycleRounds] at hb
    have hslice : (pySlice initExp c (c + bs)).length = bs := by
      rw [pySlice_length initExp c (c + bs) (by omega)]
      omega
    by_cases hpp : idx % P = p
    · rw [if_pos hpp] at hb
      rcases List.mem_cons.mp hb with hb1 | hb2
      · rw [hb1]
        exact hslice
      · exact ih (c + bs) (idx + 1) (by omega) b hb2
    · rw [if_neg hpp] at hb
      exact ih (c + bs) (idx + 1) (by omega) b hb

theorem cycleRounds_sliceOf {α : Type u} (P p bs : Nat) (initExp : List α) :
    ∀ (n c idx : Nat), ∀ b ∈ cycleRounds P p bs initExp n c idx,
      SliceOf initExp b := by
  intro n
  induction n with
  | zero =>
    intro c idx b hb
    simp [cycleRounds] at hb
  | succ n ih =>
    intro c idx b hb
    simp only [cycleRounds] at hb
    by_cases hpp : idx % P = p
    · rw [if_pos hpp] at hb
      rcases List.mem_cons.mp hb with hb1 | hb2
      · rw [hb1]
        exact pySlice_sliceOf initExp c (c + bs)
      · exact ih (c + bs) (idx + 1) b hb2
    · rw [if_neg hpp] at hb
      exact ih (c + bs) (idx + 1) b hb

theorem cycleLoop_length {α : Type u} (P p bs : Nat) (initExp : List α)
    (c idx : Nat) (batch : List α) (hP : 0 < P) (hp : p < P) :
    (cycleLoop P p bs initExp c idx batch).length
      = if idx % P = 0 ∧ batch.isEmpty then 0 else if idx % P ≤ p then 1 else 0 := by
  have hr : idx % P < P := Nat.mod_lt idx hP
  by_cases hguard : idx % P = 0 ∧ batch.isEmpty = true
  · simp only [cycleLoop]
    rw [if_pos hguard, if_pos hguard]
    rfl
  · simp only [cycleLoop]
    rw [if_neg hguard, if_neg hguard]
    by_cases hstop : idx % P + 1 = P
    · have hPm : idx % P = P - 1 := by omega
      obtain ⟨hmod, _⟩ := mod_div_succ_eq P idx hP hPm
      rw [hmod, Nat.sub_zero, Nat.mod_self]
      by_cases hpp : idx % P = p
      · rw [if_pos hpp, if_pos (by omega)]
        rfl
      · rw [if_neg hpp, if_neg (by omega)]
        rfl
    · have hlt : idx % P + 1 < P := by omega
      obtain ⟨hmod, _⟩ := mod_div_succ_lt P idx hP hlt
      rw [hmod, Nat.mod_eq_of_lt (by omega : P - (idx % P + 1) < P)]
      have hcnt := cycleRounds_length P p bs initExp hP hp (P - (idx % P + 1))
        (c + bs - batch.length) (idx + 1) (by rw [hmod]; omega)
      rw [hmod] at hcnt
      by_cases hpp : idx % P = p
      · rw [if_pos hpp, List.length_cons, hcnt, if_neg (by omega), if_pos (by omega)]
      · rw [if_neg hpp, hcnt]
        by_cases hple : idx % P ≤ p
        · rw [if_pos (by omega), if_pos hple]
        · rw [if_neg (by omega), if_neg hple]

theorem cycleLoop_sizes {α : Type u} (P p bs : Nat) (initExp : List α)
    (idx : Nat) (batch : List α) (hP : 0 < P)
    (hlen : P * bs ≤ initExp.length) (hbatch : batch.length ≤ bs) :
    ∀ b ∈ cycleLoop P p bs initExp 0 idx batch, b.length = bs := by
  intro b hb
  have hble : bs ≤ P * bs := Nat.le_mul_of_pos_left bs hP
  simp only [cycleLoop] at hb
  by_cases hguard : idx % P = 0 ∧ batch.isEmpty = true
  · rw [if_pos hguard] at hb
    simp at hb
  · rw [if_neg hguard] at hb
    have hslice : (batch ++ pySlice initExp 0 (0 + bs - batch.length)).length = bs := by
      rw [List.length_append, pySlice_length initExp 0 _ (by omega)]
      omega
    have hrest : ∀ b2 ∈ cycleRounds P p bs initExp ((P - (idx + 1) % P) % P)
        (0 + bs - batch.length) (idx + 1), b2.length = bs := by
      apply cycleRounds_sizes
      have hn : (P - (idx + 1) % P) % P ≤ P - 1 := by
        have := Nat.mod_lt (P - (idx + 1) % P) hP
        omega
      have hmul : ((P - (idx + 1) % P) % P) * bs ≤ (P - 1) * bs :=
        Nat.mul_le_mul_right bs hn
      have hPb : (P - 1) * bs + bs = P * bs := by
        rw [← Nat.succ_mul]
        congr 1
        omega
      omega
    by_cases hpp : idx % P = p
    · rw [if_pos hpp] at hb
      rcases List.mem_cons.mp hb with hb1 | hb2
      · rw [hb1]
        exact hslice
      · exact hrest b hb2
    · rw [if_neg hpp] at hb
      exact hrest b hb

theorem cycleLoop_content {α : Type u} (P p bs : Nat) (initExp : List α)
    (c idx : Nat) (batch : List α) :
    ∀ b ∈ cycleLoop P p bs initExp c idx batch,
      ∃ extra, (b = batch ++ extra ∨ b = extra) ∧ SliceOf initExp extra := by
  intro b hb
  simp only [cycleLoop] at hb
  by_cases hguard : idx % P = 0 ∧ batch.isEmpty = true
  · rw [if_pos hguard] at hb
    simp at hb
  · rw [if_neg hguard] at hb
    by_cases hpp : idx % P = p
    · rw [if_pos hpp] at hb
      rcases List.mem_cons.mp hb with hb1 | hb2
      · exact ⟨pySlice initExp c (c + bs - batch.length), Or.inl hb1,
          pySlice_sliceOf initExp c (c + bs - batch.length)⟩
      · exact ⟨b, Or.inr rfl, cycleRounds_sliceOf P p bs initExp _ _ _ b hb2⟩
    · rw [if_neg hpp] at hb
      exact ⟨b, Or.inr rfl, cycleRounds_sliceOf P p bs initExp _ _ _ b hb⟩

/-! ### Unfolding `iterWithNoSplit` -/

theorem iterNoSplit_even_eq {α : Type u} (P p bs : Nat) (src : List (List α))
    (I B : List α) (O : List (List α))
    (hstate : nsRun P p (some bs) false 0 (⟨[], [], []⟩ : NSState α) src = ⟨I, B, O⟩)
    (hI : I.isEmpty = false) :
    iterWithNoSplit P p (some bs) false true src
      = (if B.length = bs then O ++ [B] else O)
        ++ (if (src.getLastD []).length = bs
            then cycleLoop P p bs (expandData (P * bs) I (P * bs)) 0 src.length []
            else cycleLoop P p bs (expandData (P * bs) I (P * bs)) 0 (src.length - 1)
              (src.getLastD [])) := by
  simp only [iterWithNoSplit, hstate, hI, Bool.false_eq_true, if_false, Bool.not_true,
    not_false_iff]
  by_cases h1 : (src.getLast?.getD []).length = bs <;> by_cases h2 : B.length = bs <;>
    simp [h1, h2, List.getLastD_eq_getLast?]

theorem iterNoSplit_dropLast_eq {α : Type u} (P p : Nat) (bs? : Option Nat) (eb : Bool)
    (src : List (List α)) :
    iterWithNoSplit P p bs? true eb src
      = (nsRun P p bs? true 0 (⟨[], [], []⟩ : NSState α) src).out := by
  simp [iterWithNoSplit]

theorem nsState_full {α : Type u} (P p bs : Nat) (src : List (List α))
    (hP : 0 < P) (hp : p < P)
    (hfull : ∀ i, i < src.length → (src.getD i []).length = bs) :
    nsRun P p (some bs) false 0 (⟨[], [], []⟩ : NSState α) src
      = ⟨(src.take P).flatten,
         if p < src.length % P then src.getD (src.length / P * P + p) [] else [],
         (List.range (src.length / P)).map (fun a => src.getD (a * P + p) [])⟩ := by
  rw [nsRun_full P p bs false src hP hp hfull]
  refine NSState.ext ?_ ?_ ?_
  · simp only [nsPhi]
    rw [if_neg (by simp), take_min_length]
  · rfl
  · rfl

theorem nsState_short {α : Type u} (P p bs : Nat) (init : List (List α)) (lastB : List α)
    (hP : 0 < P) (hp : p < P)
    (hfull_init : ∀ i, i < init.length → (init.getD i []).length = bs)
    (hne : lastB.length ≠ bs) :
    nsRun P p (some bs) false 0 (⟨[], [], []⟩ : NSState α) (init ++ [lastB])
      = ⟨((init ++ [lastB]).take P).flatten,
         if init.length % P = p then lastB
           else if p < init.length % P then init.getD (init.length / P * P + p) [] else [],
         (List.range (init.length / P)).map (fun a => init.getD (a * P + p) [])⟩ := by
  rw [nsRun_concat P p bs false init lastB hP hp hfull_init]
  have hguard : ¬ (init.length % P = P - 1 ∧
      ((some bs).all fun bsv => lastB.length == bsv) = true) := by
    intro hc
    have h2 : (lastB.length == bs) = true := hc.2
    have h3 : lastB.length = bs := by simpa using h2
    exact hne h3
  simp only [nsStep]
  rw [if_neg hguard]
  refine NSState.ext ?_ ?_ ?_
  · by_cases hnP : init.length < P
    · rw [if_pos (And.intro (by simp) hnP)]
      simp only [nsPhi]
      rw [if_neg (by simp), Nat.min_eq_left (by omega), List.take_length,
        List.take_of_length_le
          (by simp only [List.length_append, List.length_cons, List.length_nil]; omega),
        List.flatten_append]
      simp
    · rw [if_neg (fun hc => hnP hc.2)]
      simp only [nsPhi]
      rw [if_neg (by simp), Nat.min_eq_right (by omega),
        List.take_append_of_le_length (by omega)]
  · simp only [nsPhi]
  · rfl

theorem out_mem {α : Type u} (l : List (List α)) (P p n bs : Nat)
    (_hP : 0 < P) (hp : p < P) (hn : n ≤ l.length)
    (hfull : ∀ i, i < n → (l.getD i []).length = bs) :
    ∀ b ∈ (List.range (n / P)).map (fun a => l.getD (a * P + p) []),
      b ∈ l ∧ b.length = bs := by
  intro b hb
  obtain ⟨a, ha, hbe⟩ := List.mem_map.mp hb
  have halt : a < n / P := List.mem_range.mp ha
  have h1 : (a + 1) * P ≤ n / P * P := Nat.mul_le_mul_right P (by omega)
  have h2 : n / P * P ≤ n := Nat.div_mul_le_self n P
  have h3 : (a + 1) * P = a * P + P := Nat.succ_mul a P
  have hidx : a * P + p < n := by omega
  have hlen : (l.getD (a * P + p) []).length = bs := hfull _ hidx
  have hmem : l.getD (a * P + p) [] ∈ l := by
    rw [List.getD_eq_getElem l [] (by omega)]
    exact List.getElem_mem _
  rw [← hbe]
  exact ⟨hmem, hlen⟩

theorem noSplit_even_main {α : Type u} (P p bs : Nat) (src : List (List α))
    (hP : 0 < P) (hp : p < P) (hbs : 0 < bs) (hwf : WFBatches bs src) :
    (iterWithNoSplit P p (some bs) false true src).length
      = (src.length + (P - 1)) / P ∧
    ∀ b ∈ iterWithNoSplit P p (some bs) false true src,
      b.length = bs ∧
      (b ∈ src ∨ ∃ real extra, b = real ++ extra ∧
        (∃ s2, src.getLastD [] = s2 ++ real) ∧
        ∃ m, SliceOf ((List.replicate m ((src.take P).flatten)).flatten) extra) := by
  by_cases hsrc : src = []
  · subst hsrc
    have hempty : iterWithNoSplit P p (some bs) false true ([] : List (List α)) = [] := by
      simp [iterWithNoSplit, nsRun]
    rw [hempty]
    constructor
    · simp [Nat.div_eq_of_lt (show P - 1 < P by omega)]
    · intro b hb
      simp at hb
  · obtain ⟨init, lastB, hdec⟩ : ∃ i l, src = i ++ [l] :=
      ⟨src.dropLast, src.getLast hsrc, (List.dropLast_append_getLast hsrc).symm⟩
    have hdlast : src.dropLast = init := by
      rw [hdec, List.dropLast_concat]
    have hlastq : src.getLast? = some lastB := by
      rw [hdec, List.getLast?_concat]
    have hfull_init : ∀ i, i < init.length → (init.getD i []).length = bs := by
      intro i hi
      have h1 := hwf.1
      rw [hdlast] at h1
      apply h1
      rw [List.getD_eq_getElem init [] hi]
      exact List.getElem_mem _
    have hlastb : 1 ≤ lastB.length ∧ lastB.length ≤ bs := by
      apply hwf.2
      rw [hlastq]
      simp
    have hLlen : src.length = init.length + 1 := by
      rw [hdec]
      simp
    have hlastD : src.getLastD [] = lastB := by
      rw [List.getLastD_eq_getLast?, hlastq]
      rfl
    have hmemlen : ∀ b ∈ src, 1 ≤ b.length := by
      intro b hb
      rw [hdec] at hb
      rcases List.mem_append.mp hb with h | h
      · obtain ⟨i, hi, heq⟩ := List.mem_iff_getElem.mp h
        have hl := hfull_init i hi
        rw [List.getD_eq_getElem init [] hi, heq] at hl
        omega
      · have hbl : b = lastB := by simpa using h
        rw [hbl]
        exact hlastb.1
    have hbne : ∀ b ∈ src, b ≠ [] := by
      intro b hb
      have := hmemlen b hb
      exact List.length_pos.mp (by omega)
    have hIne : ((src.take P).flatten).isEmpty = false := by
      have hne := flatten_take_ne_nil src P hP hsrc hbne
      cases hh : ((src.take P).flatten).isEmpty
      · rfl
      · exact absurd (List.isEmpty_iff.mp hh) hne
    have hexp := expandData_rep (P * bs) ((src.take P).flatten) (P * bs)
    have hexplen : P * bs ≤ (expandData (P * bs) ((src.take P).flatten) (P * bs)).length :=
      expandData_length (P * bs) _ (P * bs)
        (flatten_take_ne_nil src P hP hsrc hbne) (by omega)
    have hcyccontent : ∀ (batch : List α) (idx : Nat), (∃ s2, lastB = s2 ++ batch) →
        ∀ b ∈ cycleLoop P p bs (expandData (P * bs) ((src.take P).flatten) (P * bs))
            0 idx batch,
          b ∈ src ∨ ∃ real extra, b = real ++ extra ∧
            (∃ s2, src.getLastD [] = s2 ++ real) ∧
            ∃ m, SliceOf ((List.replicate m ((src.take P).flatten)).flatten) extra := by
      intro batch idx hsuf b hb
      obtain ⟨extra, hbe, hsl⟩ := cycleLoop_content P p bs _ 0 idx batch b hb
      obtain ⟨m, _, hexpeq⟩ := hexp
      right
      rcases hbe with hbe | hbe
      · exact ⟨batch, extra, hbe, by rw [hlastD]; exact hsuf, m,
          by rw [← hexpeq]; exact hsl⟩
      · exact ⟨[], extra, by rw [hbe]; simp, ⟨lastB, by rw [hlastD]; simp⟩, m,
          by rw [← hexpeq]; exact hsl⟩
    by_cases hfl : lastB.length = bs
    · -- all source batches are full
      have hfull : ∀ i, i < src.length → (src.getD i []).length = bs := by
        intro i hi
        by_cases hii : i < init.length
        · rw [hdec, List.getD_append _ _ _ _ hii]
          exact hfull_init i hii
        · have hie : i = init.length := by omega
          subst hie
          rw [hdec, List.getD_append_right _ _ _ _ (Nat.le_refl _)]
          simpa using hfl
      have hstate := nsState_full P p bs src hP hp hfull
      have hiter := iterNoSplit_even_eq P p bs src _ _ _ hstate hIne
      rw [hlastD, if_pos hfl] at hiter
      have hdm := Nat.div_add_mod' src.length P
      have hrP : src.length % P < P := Nat.mod_lt _ hP
      have houtmem := out_mem src P p src.length bs hP hp (Nat.le_refl _) hfull
      have hcyclen0 : (cycleLoop P p bs
          (expandData (P * bs) ((src.take P).flatten) (P * bs)) 0 src.length
          ([] : List α)).length
          = if src.length % P = 0 then 0 else if src.length % P ≤ p then 1 else 0 := by
        rw [cycleLoop_length P p bs _ 0 src.length ([] : List α) hP hp]
        by_cases hr : src.length % P = 0 <;> simp [hr]
      have hcycsizes := cycleLoop_sizes P p bs
        (expandData (P * bs) ((src.take P).flatten) (P * bs)) src.length
        ([] : List α) hP hexplen (by simp)
      constructor
      · rw [hiter, List.length_append, hcyclen0, div_ceil_eq src.length P hP]
        rcases Nat.eq_zero_or_pos (src.length % P) with hr | hr
        · rw [if_neg (show ¬ p < src.length % P by omega),
            if_neg (show ¬ ([] : List α).length = bs by simpa using Nat.ne_of_lt hbs),
            if_pos hr, if_pos hr]
          simp
        · by_cases hpr : p < src.length % P
          · have hBfull : (src.getD (src.length / P * P + p) []).length = bs :=
              hfull _ (by omega)
            rw [if_pos hpr, if_pos hBfull, if_neg (show ¬ src.length % P = 0 by omega),
              if_neg (show ¬ src.length % P = 0 by omega),
              if_neg (show ¬ src.length % P ≤ p by omega)]
            simp
          · rw [if_neg hpr,
              if_neg (show ¬ ([] : List α).length = bs by simpa using Nat.ne_of_lt hbs),
              if_neg (show ¬ src.length % P = 0 by omega),
              if_neg (show ¬ src.length % P = 0 by omega),
              if_pos (show src.length % P ≤ p by omega)]
            simp
      · intro b hb
        rw [hiter] at hb
        rcases List.mem_append.mp hb with hb1 | hb2
        · by_cases hpr : p < src.length % P
          · rw [if_pos hpr] at hb1
            by_cases hBfull : (src.getD (src.length / P * P + p) []).length = bs
            · rw [if_pos hBfull] at hb1
              rcases List.mem_append.mp hb1 with hbo | hbB
              · have hm := houtmem b hbo
                exact ⟨hm.2, Or.inl hm.1⟩
              · have hbeq : b = src.getD (src.length / P * P + p) [] := by
                  simpa using hbB
                have hidx : src.length / P * P + p < src.length := by omega
                refine ⟨by rw [hbeq]; exact hBfull, Or.inl ?_⟩
                rw [hbeq, List.getD_eq_getElem src [] hidx]
                exact List.getElem_mem _
            · rw [if_neg hBfull] at hb1
              have hm := houtmem b hb1
              exact ⟨hm.2, Or.inl hm.1⟩
          · rw [if_neg hpr] at hb1
            rw [if_neg (by simpa using Nat.ne_of_lt hbs)] at hb1
            have hm := houtmem b hb1
            exact ⟨hm.2, Or.inl hm.1⟩
        · exact ⟨hcycsizes b hb2, hcyccontent [] src.length ⟨lastB, by simp⟩ b hb2⟩
    · -- short final batch
      have hstate := nsState_short P p bs init lastB hP hp hfull_init hfl
      rw [← hdec] at hstate
      have hiter := iterNoSplit_even_eq P p bs src _ _ _ hstate hIne
      rw [hlastD, if_neg hfl, show src.length - 1 = init.length by omega] at hiter
      have hdm := Nat.div_add_mod' init.length P
      have hrP : init.length % P < P := Nat.mod_lt _ hP
      have houtmem := out_mem init P p init.length bs hP hp (Nat.le_refl _) hfull_init
      have hlbne : lastB.isEmpty = false := by
        cases hh : lastB.isEmpty
        · rfl
        · have := List.isEmpty_iff.mp hh
          have h1 := hlastb.1
          rw [this] at h1
          simp at h1
      have hcyclen1 : (cycleLoop P p bs
          (expandData (P * bs) ((src.take P).flatten) (P * bs)) 0 init.length
          lastB).length = if init.length % P ≤ p then 1 else 0 := by
        rw [cycleLoop_length P p bs _ 0 init.length lastB hP hp]
        simp [hlbne]
      have hcycsizes := cycleLoop_sizes P p bs
        (expandData (P * bs) ((src.take P).flatten) (P * bs)) init.length
        lastB hP hexplen hlastb.2
      have hceil : (src.length + (P - 1)) / P = init.length / P + 1 := by
        rw [show src.length + (P - 1) = init.length + P by omega,
          Nat.add_div_right _ hP]
      constructor
      · rw [hiter, List.length_append, hcyclen1, hceil]
        by_cases hpp : init.length % P = p
        · rw [if_pos hpp, if_neg hfl, if_pos (show init.length % P ≤ p by omega)]
          simp
        · rw [if_neg hpp]
          by_cases hplt : p < init.length % P
          · have hBfull : (init.getD (init.length / P * P + p) []).length = bs :=
              hfull_init _ (by omega)
            rw [if_pos hplt, if_pos hBfull,
              if_neg (show ¬ init.length % P ≤ p by omega)]
            simp
          · rw [if_neg hplt,
              if_neg (show ¬ ([] : List α).length = bs by simpa using Nat.ne_of_lt hbs),
              if_pos (show init.length % P ≤ p by omega)]
            simp
      · intro b hb
        rw [hiter] at hb
        rcases List.mem_append.mp hb with hb1 | hb2
        · have hmem_init : ∀ b2, b2 ∈ init → b2 ∈ src := by
            intro b2 h2
            rw [hdec]
            exact List.mem_append_left _ h2
          by_cases hpp : init.length % P = p
          · rw [if_pos hpp, if_neg hfl] at hb1
            have hm := houtmem b hb1
            exact ⟨hm.2, Or.inl (hmem_init b hm.1)⟩
          · rw [if_neg hpp] at hb1
            by_cases hplt : p < init.length % P
            · rw [if_pos hplt] at hb1
              by_cases hBfull : (init.getD (init.length / P * P + p) []).length = bs
              · rw [if_pos hBfull] at hb1
                rcases List.mem_append.mp hb1 with hbo | hbB
                · have hm := houtmem b hbo
                  exact ⟨hm.2, Or.inl (hmem_init b hm.1)⟩
                · have hbeq : b = init.getD (init.length / P * P + p) [] := by
                    simpa using hbB
                  have hidx : init.length / P * P + p < init.length := by omega
                  refine ⟨by rw [hbeq]; exact hBfull, Or.inl (hmem_init _ ?_)⟩
                  rw [hbeq, List.getD_eq_getElem init [] hidx]
                  exact List.getElem_mem _
              · rw [if_neg hBfull] at hb1
                have hm := houtmem b hb1
                exact ⟨hm.2, Or.inl (hmem_init b hm.1)⟩
            · rw [if_neg hplt, if_neg (by simpa using Nat.ne_of_lt hbs)] at hb1
              have hm := houtmem b hb1
              exact ⟨hm.2, Or.inl (hmem_init b hm.1)⟩
        · exact ⟨hcycsizes b hb2, hcyccontent lastB init.length ⟨[], by simp⟩ b hb2⟩

theorem slice_len_helper (q X L target : Nat) (hXA : X + q ≤ target) (hL : target ≤ L) :
    min (X + q - X) (L - X) = q := by omega

theorem noSplit_dropLast_sizes {α : Type u} (P p bs : Nat) (src : List (List α))
    (hP : 0 < P) (hp : p < P) (hwf : WFBatches bs src) :
    ∀ b ∈ iterWithNoSplit P p (some bs) true true src, b.length = bs := by
  rw [iterNoSplit_dropLast_eq]
  by_cases hsrc : src = []
  · subst hsrc
    intro b hb
    simp [nsRun] at hb
  · obtain ⟨init, lastB, hdec⟩ : ∃ i l, src = i ++ [l] :=
      ⟨src.dropLast, src.getLast hsrc, (List.dropLast_append_getLast hsrc).symm⟩
    have hdlast : src.dropLast = init := by
      rw [hdec, List.dropLast_concat]
    have hfull_init : ∀ i, i < init.length → (init.getD i []).length = bs := by
      intro i hi
      have h1 := hwf.1
      rw [hdlast] at h1
      apply h1
      rw [List.getD_eq_getElem init [] hi]
      exact List.getElem_mem _
    by_cases hfl : lastB.length = bs
    · have hfull : ∀ i, i < src.length → (src.getD i []).length = bs := by
        intro i hi
        have hLlen : src.length = init.length + 1 := by rw [hdec]; simp
        by_cases hii : i < init.length
        · rw [hdec, List.getD_append _ _ _ _ hii]
          exact hfull_init i hii
        · have hie : i = init.length := by omega
          subst hie
          rw [hdec, List.getD_append_right _ _ _ _ (Nat.le_refl _)]
          simpa using hfl
      rw [nsRun_full P p bs true src hP hp hfull]
      intro b hb
      simp only [nsPhi] at hb
      exact (out_mem src P p src.length bs hP hp (Nat.le_refl _) hfull b hb).2
    · rw [hdec, nsRun_concat P p bs true init lastB hP hp hfull_init]
      have hguard : ¬ (init.length % P = P - 1 ∧
          ((some bs).all fun bsv => lastB.length == bsv) = true) := by
        intro hc
        have h2 : (lastB.length == bs) = true := hc.2
        have h3 : lastB.length = bs := by simpa using h2
        exact hfl h3
      intro b hb
      have hout : (nsStep P p (some bs) true init.length
          (nsPhi P p true init init.length) lastB).out
          = (nsPhi P p true init init.length).out := by
        simp only [nsStep]
        rw [if_neg hguard]
      rw [hout] at hb
      simp only [nsPhi] at hb
      exact (out_mem init P p init.length bs hP hp (Nat.le_refl _) hfull_init b hb).2

theorem split_even_sizes {α : Type u} (P p bs : Nat) (dl : Bool) (src : List (List α))
    (_hP : 0 < P) (hp : p < P) (hdvd : bs % P = 0) :
    ∀ b ∈ iterWithSplit P p bs dl true src, b.length = bs / P := by
  intro b hb
  have hble : bs / P * (p + 1) ≤ bs := by
    have h1 : bs / P * (p + 1) ≤ bs / P * P := Nat.mul_le_mul_left _ (by omega)
    have h2 : bs / P * P = bs := Nat.div_mul_cancel (Nat.dvd_of_mod_eq_zero hdvd)
    omega
  have hsucc : bs / P * (p + 1) = bs / P * p + bs / P := Nat.mul_succ _ _
  have hmain : ∀ b2 ∈ src.filterMap
      (fun bb => if bb.length = bs
        then some (pySlice bb (bs / P * p) (bs / P * (p + 1))) else none),
      b2.length = bs / P := by
    intro b2 h2
    obtain ⟨bb, _, he⟩ := List.mem_filterMap.mp h2
    by_cases hl : bb.length = bs
    · rw [if_pos hl] at he
      have hbe := Option.some.inj he
      rw [← hbe, pySlice, List.length_take, List.length_drop, hl, hsucc]
      exact slice_len_helper (bs / P) (bs / P * p) bs bs
        (by rw [← hsucc]; exact hble) (Nat.le_refl bs)
    · rw [if_neg hl] at he
      exact absurd he (by simp)
  simp only [iterWithSplit] at hb
  cases dl with
  | true =>
    rw [if_pos rfl] at hb
    exact hmain b hb
  | false =>
    rw [if_neg (by simp)] at hb
    by_cases hie : (src.headD []).isEmpty = true
    · rw [if_pos hie] at hb
      exact hmain b hb
    · rw [if_neg hie] at hb
      by_cases hlb : (src.getLastD []).length < bs
      · rw [if_neg (not_not_intro hlb), if_neg (by simp)] at hb
        rcases List.mem_append.mp hb with h | h
        · exact hmain b h
        · have hhdne : src.headD [] ≠ [] := by
            intro hc
            rw [hc] at hie
            simp at hie
          have hexplen2 : bs ≤ (expandData bs (src.headD []) bs).length :=
            expandData_length bs _ bs hhdne (by omega)
          have hbeq : b = pySlice (src.getLastD [] ++ expandData bs (src.headD []) bs)
              (bs / P * p) (bs / P * (p + 1)) := by
            simpa using h
          rw [hbeq, pySlice, List.length_take, List.length_drop, List.length_append,
            hsucc]
          exact slice_len_helper (bs / P) (bs / P * p)
            ((src.getLastD []).length + (expandData bs (src.headD []) bs).length) bs
            (by rw [← hsucc]; exact hble) (by omega)
      · rw [if_pos hlb] at hb
        exact hmain b hb

/-! ### Claim C1: counts and padding of the even-batches shard -/

/-- C1: for every batch sampler output (all batches of nominal size `bs`
except a nonempty final batch of at most that size), every process count `P`
and process index `p < P`, with `drop_last=False` and `even_batches=True`,
`BatchSamplerShard._iter_with_no_split` yields exactly `⌈L/P⌉` batches, and
every yielded batch is either a batch of the source or, in the padded tail,
a trailing part of the source's final batch followed by a contiguous slice
of the repeated earliest source items (the concatenation of the first `P`
source batches), in their original order. -/
theorem batchSamplerShard_even_ceil_pad {α : Type u} (P p bs : Nat)
    (src : List (List α)) (hP : 0 < P) (hp : p < P) (hbs : 0 < bs)
    (hwf : WFBatches bs src) :
    (iterWithNoSplit P p (some bs) false true src).length
      = (src.length + (P - 1)) / P ∧
    ∀ b ∈ iterWithNoSplit P p (some bs) false true src,
      b ∈ src ∨ ∃ real extra, b = real ++ extra ∧
        (∃ s2, src.getLastD [] = s2 ++ real) ∧
        ∃ m, SliceOf ((List.replicate m ((src.take P).flatten)).flatten) extra := by
  obtain ⟨h1, h2⟩ := noSplit_even_main P p bs src hP hp hbs hwf
  exact ⟨h1, fun b hb => (h2 b hb).2⟩

/-- C1 witness: two processes, batch size 2, source `[[0,1],[2,3],[4]]`
(so `L = 3`, `⌈L/P⌉ = 2`). -/
theorem batchSamplerShard_even_ceil_pad_witness :
    (iterWithNoSplit 2 0 (some 2) false true
        ([[0, 1], [2, 3], [4]] : List (List Nat))).length = (3 + (2 - 1)) / 2 ∧
    ∀ b ∈ iterWithNoSplit 2 0 (some 2) false true
        ([[0, 1], [2, 3], [4]] : List (List Nat)),
      b ∈ ([[0, 1], [2, 3], [4]] : List (List Nat)) ∨
      ∃ real extra, b = real ++ extra ∧
        (∃ s2, ([[0, 1], [2, 3], [4]] : List (List Nat)).getLastD [] = s2 ++ real) ∧
        ∃ m, SliceOf ((List.replicate m
          ((([[0, 1], [2, 3], [4]] : List (List Nat)).take 2).flatten)).flatten) extra :=
  batchSamplerShard_even_ceil_pad 2 0 2 [[0, 1], [2, 3], [4]] (by decide) (by decide)
    (by decide) (by refine ⟨?_, ?_⟩ <;> decide)

/-! ### Claim C10: nominal per-process batch sizes under `even_batches` -/

/-- C10: with `even_batches=True`, every batch yielded by `BatchSamplerShard`
has exactly the nominal per-process size — `bs` in the
split-across-batches mode (for every batch-sampler output, i.e. every
well-formed source), and `bs / P` in the split-within-batch mode (which
requires `P ∣ bs` at construction, and holds for every source whatsoever) —
for both values of `drop_last`; no undersized batch is ever yielded. -/
theorem batchSamplerShard_nominal_sizes {α : Type u} (P p bs : Nat) (dl : Bool)
    (src : List (List α)) (hP : 0 < P) (hp : p < P) (hbs : 0 < bs) :
    (WFBatches bs src →
      ∀ b ∈ iterWithNoSplit P p (some bs) dl true src, b.length = bs) ∧
    (bs % P = 0 →
      ∀ b ∈ iterWithSplit P p bs dl true src, b.length = bs / P) := by
  constructor
  · intro hwf
    cases dl
    · exact fun b hb => ((noSplit_even_main P p bs src hP hp hbs hwf).2 b hb).1
    · exact noSplit_dropLast_sizes P p bs src hP hp hwf
  · intro hdvd
    exact split_even_sizes P p bs dl src hP hp hdvd

/-- C10 witness: two processes, batch size 2, source `[[0,1],[2,3],[4]]`,
`drop_last=False`, process 1. -/
theorem batchSamplerShard_nominal_sizes_witness :
    (WFBatches 2 ([[0, 1], [2, 3], [4]] : List (List Nat)) →
      ∀ b ∈ iterWithNoSplit 2 1 (some 2) false true
        ([[0, 1], [2, 3], [4]] : List (List Nat)), b.length = 2) ∧
    (2 % 2 = 0 →
      ∀ b ∈ iterWithSplit 2 1 2 false true
        ([[0, 1], [2, 3], [4]] : List (List Nat)), b.length = 2 / 2) :=
  batchSamplerShard_nominal_sizes 2 1 2 false [[0, 1], [2, 3], [4]] (by decide)
    (by decide) (by decide)

end DataLoader
